import Mathlib

/-!
Verification of the runpod-gpu-suite media-processing backend.

Shallow embedding, in Lean 4, of the parts of the repository that the
frozen claims C1..C10 are about:

* request slot-key validation (`src/models/schemas.py`),
* the top-level job handler's error translation (`src/handler.py`),
* text wrapping on a pixel budget (`FFmpegService._wrap_text`,
  `SteinService._wrap_text`, both delegating to Python's `textwrap.wrap`),
* video trimming (`FFmpegService.trim_video`),
* video scaling's copy fast path (`FFmpegService.scale_video`),
* the randomized-uniqueness parameter draws (`SteinService`),
* the nested time-conditional position expression
  (`SteinService._build_position_expression`),
* text position presets (`FFmpegService._calculate_position`).

Machine reals (Python floats) are modelled as `ℚ`; Python `int()`
truncation is modelled by `pyInt`.  Randomness is modelled by passing the
stream of raw draws explicitly.  Subprocess side effects (ffmpeg
invocations, file copies) are modelled by the pure decision data that the
code computes before issuing them.
-/

namespace RunpodSuite

/-- Python's `int(x)` on a float: truncation toward zero. -/
def pyInt (q : ℚ) : ℤ := if 0 ≤ q then ⌊q⌋ else ⌈q⌉

/-! ## Trimming (`FFmpegService.trim_video`, src/services/ffmpeg_service.py)

The method probes the input's duration, no-ops when
`target_duration >= original_duration`, and otherwise computes the
sub-range `[start_time, end_time]` passed to ffmpeg (`-ss`/`-to`)
according to `trim_mode`.  We model the outcome: either the no-op
(no ffmpeg command is run, the file is untouched) or the computed cut. -/

/-- Outcome of `trim_video`: `noop duration` models the early return
`{"trimmed": False, "duration": original_duration}` (no re-encode);
`cut start_time end_time duration` models the ffmpeg invocation with the
computed range and the returned
`{"trimmed": True, "duration": target_duration}`. -/
inductive TrimOutcome where
  | noop (duration : ℚ)
  | cut (start_time end_time duration : ℚ)
  deriving DecidableEq, Repr

/-- Duration reported in the result dict of `trim_video`. -/
def TrimOutcome.duration : TrimOutcome → ℚ
  | .noop d => d
  | .cut _ _ d => d

/-- `trimmed` flag of the result dict of `trim_video`. -/
def TrimOutcome.trimmed : TrimOutcome → Bool
  | .noop _ => false
  | .cut _ _ _ => true

/-- `FFmpegService.trim_video`, src/services/ffmpeg_service.py lines
486-528, as a function of the probed original duration, the requested
target duration and the trim mode. -/
def trim_video (original_duration target_duration : ℚ)
    (trim_mode : String) : TrimOutcome :=
  if original_duration ≤ target_duration then
    .noop original_duration
  else
    let trim_total := original_duration - target_duration
    if trim_mode = "start" then
      .cut trim_total original_duration target_duration
    else if trim_mode = "end" then
      .cut 0 target_duration target_duration
    else  -- "both"
      .cut (trim_total / 2) (original_duration - trim_total / 2)
        target_duration

/-! ## Scaling fast path (`FFmpegService.scale_video`)

`scale_video` probes the current dimensions (each an `Optional[int]`),
and when both equal the target it copies the file byte-for-byte with
`shutil.copy2` and returns `{"success": True, "scaled": False}`; otherwise
it re-encodes through the scale+pad filter and returns `"scaled": True`.
The re-encode itself is an external process; we model it as an arbitrary
function `encoder` on the file's bytes. -/

/-- Result of `scale_video`: the `success`/`scaled` flags of the returned
dict and the bytes of the produced output file. -/
structure ScaleResult where
  success : Bool
  scaled : Bool
  output : List ℕ
  deriving DecidableEq, Repr

/-- `FFmpegService.scale_video`, src/services/ffmpeg_service.py lines
663-755: dimension probe result (`current_width`/`current_height`,
`None` when absent), target dimensions, the input file's bytes and the
external encoder's behaviour on them. -/
def scale_video (current_width current_height : Option ℤ)
    (target_width target_height : ℤ)
    (input_bytes : List ℕ) (encoder : List ℕ → List ℕ) : ScaleResult :=
  if current_width = some target_width ∧ current_height = some target_height then
    -- `shutil.copy2(input_path, output_path)`: byte-identical copy
    { success := true, scaled := false, output := input_bytes }
  else
    { success := true, scaled := true, output := encoder input_bytes }

/-! ## Text position presets (`FFmpegService._calculate_position`) -/

/-- The fields of `TextOverrideOptions` (src/models/schemas.py) that
`_calculate_position` reads, plus the rest of the sparse override
structure.  All fields are `Optional` in the source. -/
structure TextOverrideOptions where
  font_family : Option String := none
  font_weight : Option ℤ := none
  font_size : Option ℤ := none
  text_color : Option String := none
  border_width : Option ℤ := none
  border_color : Option String := none
  shadow_x : Option ℤ := none
  shadow_y : Option ℤ := none
  shadow_color : Option String := none
  background_enabled : Option Bool := none
  background_color : Option String := none
  background_opacity : Option ℚ := none
  text_opacity : Option ℚ := none
  position : Option String := none
  custom_x : Option ℤ := none
  custom_y : Option ℤ := none
  alignment : Option String := none
  max_text_width_percent : Option ℤ := none
  line_spacing : Option ℤ := none

/-- `TextStyle` dataclass (src/config.py lines 48-65). -/
structure TextStyle where
  font_path : String
  font_size : ℤ
  text_color : String
  border_width : ℤ
  border_color : String
  shadow_x : ℤ
  shadow_y : ℤ
  shadow_color : String
  position : String
  background_enabled : Bool
  background_color : String
  background_opacity : ℚ
  text_opacity : ℚ
  max_text_width_percent : ℤ := 80
  line_spacing : ℤ := -8

/-- The `positions` preset dict of `_calculate_position`
(src/services/ffmpeg_service.py lines 311-321). -/
def positionPresets : String → Option (String × String)
  | "center" => some ("(w-text_w)/2", "(h-text_h)/2")
  | "top-left" => some ("10", "10")
  | "top-right" => some ("w-text_w-10", "10")
  | "top-center" => some ("(w-text_w)/2", "10")
  | "bottom-left" => some ("10", "h-text_h-10")
  | "bottom-right" => some ("w-text_w-10", "h-text_h-10")
  | "bottom-center" => some ("(w-text_w)/2", "h-text_h-10")
  | "middle-left" => some ("10", "(h-text_h)/2")
  | "middle-right" => some ("w-text_w-10", "(h-text_h)/2")
  | _ => none

/-- The nine preset names (the keys of the `positions` dict). -/
def presetNames : List String :=
  ["center", "top-left", "top-right", "top-center", "bottom-left",
   "bottom-right", "bottom-center", "middle-left", "middle-right"]

/-- The `position` local of `_calculate_position`: `style.position`,
replaced by `overrides.position` when overrides are given and carry a
position.  (A pydantic model instance is always truthy, so
`if overrides and overrides.position:` tests that `overrides` is not
`None` and that its `position` field is not `None`.) -/
def effectivePosition (style : TextStyle)
    (overrides : Option TextOverrideOptions) : String :=
  match overrides with
  | some o => match o.position with
    | some p => p
    | none => style.position
  | none => style.position

/-- `FFmpegService._calculate_position`, src/services/ffmpeg_service.py
lines 302-329: the custom branch runs only when the effective position is
`"custom"` and overrides are present with both coordinates; every other
case falls through to `positions.get(position, positions["center"])`. -/
def calculate_position (style : TextStyle)
    (overrides : Option TextOverrideOptions) : String × String :=
  let position := effectivePosition style overrides
  -- `if position == "custom" and overrides:`
  match overrides with
  | some o =>
    if position = "custom" then
      match o.custom_x, o.custom_y with
      | some cx, some cy => (toString cx, toString cy)
      | _, _ => (positionPresets position).getD
          ("(w-text_w)/2", "(h-text_h)/2")
    else (positionPresets position).getD ("(w-text_w)/2", "(h-text_h)/2")
  | none => (positionPresets position).getD ("(w-text_w)/2", "(h-text_h)/2")

/-! ## Slot-key validation (src/models/schemas.py)

Each collage request declares its images as
`Dict[Literal[...allowed keys...], HttpUrl]`; pydantic rejects any key
outside the `Literal` set during type validation, *before* the
`validate_image_keys` field validator runs.  We model request-level
validation as that literal-key check followed by the field validator's
own checks.  Keys of a parsed dict are unique, hence a `Finset`. -/

/-- The `Literal` key set of `POVTemplateRequest.images`, equal to the
`required` set of its `validate_image_keys` (lines 431-442). -/
def povRequired : Finset String :=
  {"cap", "flag", "landscape", "shirt", "watch", "pants", "shoes", "car"}

/-- The `Literal` key set of `OutfitSingleRequest.images`, equal to the
`required` set of its `validate_image_keys` (lines 490-500). -/
def outfitSingleRequired : Finset String :=
  {"hat", "hoodie", "extra", "meme", "pants", "shoes"}

/-- The `Literal` key set of `FitpicRequest.images`, equal to the
`required` set of its `validate_image_keys` (lines 516-524). -/
def fitpicRequired : Finset String :=
  {"npc_logo", "brand_logo", "hoodie", "hat", "meme", "shoes", "pants"}

/-- `POVTemplateRequest.validate_image_keys`: raises on a non-empty
`missing = required - keys`, then on a non-empty
`extra = keys - required`. -/
def povValidateImageKeys (keys : Finset String) : Except String Unit :=
  if povRequired \ keys ≠ ∅ then .error "Missing image slots"
  else if keys \ povRequired ≠ ∅ then .error "Unknown image slots"
  else .ok ()

/-- `OutfitSingleRequest.validate_image_keys`: same shape as the POV
validator (missing check, then extra check). -/
def outfitSingleValidateImageKeys (keys : Finset String) :
    Except String Unit :=
  if outfitSingleRequired \ keys ≠ ∅ then .error "Missing image slots"
  else if keys \ outfitSingleRequired ≠ ∅ then .error "Unknown image slots"
  else .ok ()

/-- `FitpicRequest.validate_image_keys`: this validator only checks for
missing keys (no `extra` check in the source). -/
def fitpicValidateImageKeys (keys : Finset String) : Except String Unit :=
  if fitpicRequired \ keys ≠ ∅ then .error "Missing image slots"
  else .ok ()

/-- Request-level validation of an image mapping: pydantic's `Literal`
key validation (every key must lie in the annotation's key set), then the
request's `validate_image_keys` field validator. -/
def validateRequestImages (literalKeys : Finset String)
    (validator : Finset String → Except String Unit)
    (keys : Finset String) : Except String Unit :=
  if keys ⊆ literalKeys then validator keys
  else .error "Input should be a valid Literal value"

/-- POV request image-mapping validation. -/
def povValidate (keys : Finset String) : Except String Unit :=
  validateRequestImages povRequired povValidateImageKeys keys

/-- Outfit-single request image-mapping validation. -/
def outfitSingleValidate (keys : Finset String) : Except String Unit :=
  validateRequestImages outfitSingleRequired outfitSingleValidateImageKeys keys

/-- Fitpic request image-mapping validation. -/
def fitpicValidate (keys : Finset String) : Except String Unit :=
  validateRequestImages fitpicRequired fitpicValidateImageKeys keys

/-! ## Top-level job handler (src/handler.py)

Each action handler wraps its whole body in `try: ... except Exception as
e: return {"error": str(e)}`.  We model a handler's body as an
`Except String (List (String × String))`: `.ok d` is the dict the body
returns, `.error e` is any exception (from any stage) with `str(e) = e`.
The returned dict is modelled as an association list. -/

/-- The `{"error": str(e)}` dict every action handler returns from its
`except Exception` clause. -/
def errorResult (e : String) : List (String × String) := [("error", e)]

/-- `handle_outfit` (src/handler.py lines 91-138): body result on
success, `{"error": str(e)}` on any exception. -/
def handle_outfit (r : Except String (List (String × String))) :
    List (String × String) :=
  match r with
  | .ok d => d
  | .error e => errorResult e

/-- `handle_outfit_single` (lines 144-190): same try/except shape. -/
def handle_outfit_single (r : Except String (List (String × String))) :
    List (String × String) :=
  match r with
  | .ok d => d
  | .error e => errorResult e

/-- `handle_pov` (lines 196-242): same try/except shape. -/
def handle_pov (r : Except String (List (String × String))) :
    List (String × String) :=
  match r with
  | .ok d => d
  | .error e => errorResult e

/-- `handle_merge` (lines 248-310): same try/except shape. -/
def handle_merge (r : Except String (List (String × String))) :
    List (String × String) :=
  match r with
  | .ok d => d
  | .error e => errorResult e

/-- `handle_overlay` (lines 316-394): same try/except shape. -/
def handle_overlay (r : Except String (List (String × String))) :
    List (String × String) :=
  match r with
  | .ok d => d
  | .error e => errorResult e

/-- `handle_rembg` (lines 400-476): same try/except shape. -/
def handle_rembg (r : Except String (List (String × String))) :
    List (String × String) :=
  match r with
  | .ok d => d
  | .error e => errorResult e

/-- `handle_templates_list` (lines 482-493): same try/except shape. -/
def handle_templates_list (r : Except String (List (String × String))) :
    List (String × String) :=
  match r with
  | .ok d => d
  | .error e => errorResult e

/-- `handle_template_get` (lines 496-512): same try/except shape. -/
def handle_template_get (r : Except String (List (String × String))) :
    List (String × String) :=
  match r with
  | .ok d => d
  | .error e => errorResult e

/-- `handle_template_create` (lines 515-533): `except ValueError` and
`except Exception` both return `{"error": str(e)}`. -/
def handle_template_create (r : Except String (List (String × String))) :
    List (String × String) :=
  match r with
  | .ok d => d
  | .error e => errorResult e

/-- `handle_template_update` (lines 536-559): same except shape. -/
def handle_template_update (r : Except String (List (String × String))) :
    List (String × String) :=
  match r with
  | .ok d => d
  | .error e => errorResult e

/-- `handle_template_delete` (lines 562-577): same except shape. -/
def handle_template_delete (r : Except String (List (String × String))) :
    List (String × String) :=
  match r with
  | .ok d => d
  | .error e => errorResult e

/-- `handle_template_duplicate` (lines 580-597): same except shape. -/
def handle_template_duplicate (r : Except String (List (String × String))) :
    List (String × String) :=
  match r with
  | .ok d => d
  | .error e => errorResult e

/-- `handle_health` (lines 603-642): its own `except Exception` returns
`{"status": "unhealthy", "error": str(e)}`. -/
def handle_health (r : Except String (List (String × String))) :
    List (String × String) :=
  match r with
  | .ok d => d
  | .error e => [("status", "unhealthy"), ("error", e)]

/-- `async_handler` (src/handler.py lines 648-716): routes on the
`action` field, with a final `except Exception as e: return
{"error": str(e)}`.  `r` is the routed handler's body outcome;
since every handler already catches `Exception`, the outer except only
covers the unknown-action comparison chain, which cannot raise. -/
def async_handler (action : String)
    (r : Except String (List (String × String))) :
    List (String × String) :=
  if action = "outfit" then handle_outfit r
  else if action = "outfit-single" then handle_outfit_single r
  else if action = "pov" then handle_pov r
  else if action = "merge" then handle_merge r
  else if action = "overlay" then handle_overlay r
  else if action = "rembg" then handle_rembg r
  else if action = "templates" then handle_templates_list r
  else if action = "template_get" then handle_template_get r
  else if action = "template_create" then handle_template_create r
  else if action = "template_update" then handle_template_update r
  else if action = "template_delete" then handle_template_delete r
  else if action = "template_duplicate" then handle_template_duplicate r
  else if action = "health" then handle_health r
  else errorResult ("Unknown action: " ++ action)

/-- The actions `async_handler` routes to a handler. -/
def handledActions : List String :=
  ["outfit", "outfit-single", "pov", "merge", "overlay", "rembg",
   "templates", "template_get", "template_create", "template_update",
   "template_delete", "template_duplicate", "health"]

/-! ## Randomized-uniqueness transform (src/services/stein_service.py)

The class constants and the per-invocation draws of
`SteinService.generate` (lines 377-385) and
`SteinService._generate_random_positions` (lines 118-129).  `random.uniform(a, b)`
is `a + (b-a)*random()` with `random() ∈ [0,1]`; we pass the unit draws
as an explicit stream `unit : ℕ → ℚ`.  `random.randint(lo, hi)` draws
uniformly from the inclusive range `[lo, hi]`; we model the raw draw as a
natural number reduced into the range.  `random.choice` over the
two-element axis list is modelled by the parity of a raw draw. -/

def CANVAS_WIDTH : ℤ := 1080
def CANVAS_HEIGHT : ℤ := 1920
def MIN_FADE_IN : ℚ := 20/100
def MAX_FADE_IN : ℚ := 125/100
def MIN_FADE_BLACK_OPACITY : ℚ := 69/100
def MAX_FADE_BLACK_OPACITY : ℚ := 88/100
def MIN_STRETCH_PERCENT : ℚ := 3/10
def MAX_STRETCH_PERCENT : ℚ := 12
def MIN_SLOWDOWN_PERCENT : ℚ := 0
def MAX_SLOWDOWN_PERCENT : ℚ := 20
def LOGO_SIZE : ℤ := 333
def POSITION_CHANGE_INTERVAL : ℕ := 2
def LOGO_MARGIN : ℤ := 75

/-- `random.uniform(a, b) = a + (b - a) * random()`. -/
def pyUniform (a b u : ℚ) : ℚ := a + (b - a) * u

/-- `random.randint(lo, hi)`: `n` is the raw draw, reduced into the
inclusive range `[lo, hi]` (for `lo ≤ hi`). -/
def pyRandint (lo hi : ℤ) (n : ℕ) : ℤ := lo + (n % (hi - lo + 1).toNat)

/-- `SteinService._generate_random_positions(count)`:
`count` pairs `(randint(LOGO_MARGIN, max_x), randint(LOGO_MARGIN, max_y))`
with `max_x = CANVAS_WIDTH - LOGO_SIZE - LOGO_MARGIN`,
`max_y = CANVAS_HEIGHT - LOGO_SIZE - LOGO_MARGIN`. -/
def generate_random_positions (nat : ℕ → ℕ) (count : ℕ) :
    List (ℤ × ℤ) :=
  (List.range count).map fun i =>
    (pyRandint LOGO_MARGIN (CANVAS_WIDTH - LOGO_SIZE - LOGO_MARGIN)
       (nat (2 * i)),
     pyRandint LOGO_MARGIN (CANVAS_HEIGHT - LOGO_SIZE - LOGO_MARGIN)
       (nat (2 * i + 1)))

/-- The randomization envelope drawn once per `SteinService.generate`
invocation (returned in the response metadata). -/
structure SteinParams where
  fade_duration : ℚ
  fade_black_opacity : ℚ
  stretch_direction : String
  stretch_percent : ℚ
  stretch_amount : ℤ
  slowdown_percent : ℚ
  positions : List (ℤ × ℤ)

/-- The draw block of `SteinService.generate`
(src/services/stein_service.py lines 377-385): `unit` supplies the
`random()` values behind each `random.uniform`, `coin` the
`random.choice` over `["horizontal", "vertical"]`, `nat` the raw
`randint` draws, `numPositions` the position count computed from the
clip duration. -/
def generateSteinParams (unit : ℕ → ℚ) (coin : ℕ) (nat : ℕ → ℕ)
    (numPositions : ℕ) : SteinParams :=
  let fade_duration := pyUniform MIN_FADE_IN MAX_FADE_IN (unit 0)
  let fade_black_opacity :=
    pyUniform MIN_FADE_BLACK_OPACITY MAX_FADE_BLACK_OPACITY (unit 1)
  let stretch_direction :=
    if coin % 2 = 0 then "horizontal" else "vertical"
  let stretch_percent :=
    pyUniform MIN_STRETCH_PERCENT MAX_STRETCH_PERCENT (unit 2)
  let base_dimension :=
    if stretch_direction = "horizontal" then CANVAS_WIDTH
    else CANVAS_HEIGHT
  let stretch_amount := pyInt ((base_dimension : ℚ) * stretch_percent / 100)
  let slowdown_percent :=
    pyUniform MIN_SLOWDOWN_PERCENT MAX_SLOWDOWN_PERCENT (unit 3)
  { fade_duration, fade_black_opacity, stretch_direction, stretch_percent,
    stretch_amount, slowdown_percent,
    positions := generate_random_positions nat numPositions }

/-! ## Nested time-conditional position expression
(`SteinService._build_position_expression`, lines 145-168) -/

/-- `positions[k][coord_index]` for a coordinate pair (`0` → x, `1` → y). -/
def coordAt (p : ℤ × ℤ) (coordIndex : ℕ) : ℤ :=
  if coordIndex = 0 then p.1 else p.2

/-- The f-string `f"if(lt(t\\,{threshold})\\,{coord}\\,{expr})"` of the
wrap loop in `_build_position_expression`. -/
def condWrap (threshold : ℕ) (c acc : String) : String :=
  "if(lt(t\\," ++ toString threshold ++ ")\\," ++ c ++ "\\," ++ acc
    ++ ")"

/-- The descending wrap loop of `_build_position_expression`, rendered
as a recursion from the front: the source initializes `expr` to the last
coordinate and, for `i` from `len-2` down to `0`, wraps
`expr = condWrap ((i+1)*interval) coords[i] expr`; unfolding that loop
from its final iteration outward gives exactly this recursion with `i`
counting up from `0`. -/
def nestedIfExpr (interval : ℕ) : ℕ → List String → String
  | _, [] => ""
  | _, [c] => c
  | i, c :: c' :: rest =>
    condWrap ((i + 1) * interval) c (nestedIfExpr interval (i + 1) (c' :: rest))

/-- `SteinService._build_position_expression(positions, coord_index)`:
the bare coordinate for a single position, otherwise the nested
`if(lt(t\,threshold)\,coord\,...)` chain with thresholds
`interval, 2*interval, ...`.  (Calling it on an empty list raises an
`IndexError` in the source and never happens — `num_positions ≥ 1`; the
`[]` case is given the placeholder `""`.) -/
def build_position_expression (positions : List (ℤ × ℤ))
    (coordIndex : ℕ) : String :=
  match positions with
  | [] => ""
  | [p] => toString (coordAt p coordIndex)
  | ps => nestedIfExpr POSITION_CHANGE_INTERVAL 0
      (ps.map fun p => toString (coordAt p coordIndex))

/-- Claim-side rendering of the nested conditional: thresholds
`1*interval, ..., (N-1)*interval` paired with all but the last
coordinate, folded right-to-left around the last coordinate, one
conditional per threshold (hence exactly `N-1` conditionals). -/
def specNestedExpr (interval : ℕ) (coords : List String)
    (last : String) : String :=
  (coords.zip ((List.range' 1 coords.length).map (· * interval))).foldr
    (fun ct acc => condWrap ct.2 ct.1 acc)
    last

/-- Denotation of the nested conditional emitted at nesting level `i`:
ffmpeg evaluates `if(lt(t,x),a,b)` as `a` when `t < x` and `b`
otherwise, matching the recursion of `nestedIfExpr` stage for stage. -/
def nestedIfDenote (interval : ℕ) (dflt : ℤ) : ℕ → List ℤ → ℚ → ℤ
  | _, [], _ => dflt
  | _, [c], _ => c
  | i, c :: c' :: rest, t =>
    if t < ((i + 1) * interval : ℕ) then c
    else nestedIfDenote interval dflt (i + 1) (c' :: rest) t

/-! ## Text wrapping

`FFmpegService._wrap_text` (src/services/ffmpeg_service.py lines
459-485) and `SteinService._wrap_text` (src/services/stein_service.py
lines 131-143) compute a per-line character budget from the pixel budget
and call `textwrap.wrap(text, width=max_chars)` (stein passes
`break_long_words=True`, which is the default).  We embed CPython's
`textwrap.TextWrapper` under the options in effect here: `expand_tabs`
(tabsize 8), `replace_whitespace`, `drop_whitespace`,
`break_long_words`, no indents, no `max_lines`, no
`fix_sentence_endings`.  Chunk splitting is modelled at whitespace
boundaries; the extra intra-word hyphen breakpoints of `wordsep_re` are
not modelled (the properties below are insensitive to additional split
points inside non-whitespace runs), while `_handle_long_word`'s
hyphen-aware cut (`chunk.rfind('-', 0, space_left)`) is.  Two distinct
whitespace classes are in play: chunks are split on `textwrap`'s own
six-character class, but the `chunk.strip() == ''` drop tests use
Python's full Unicode whitespace class, so a whitespace-only chunk such
as a lone U+00A0 is still dropped at a line boundary.  Text is handled
as `List Char`. -/

/-- The six-character whitespace class of `textwrap` itself
(`_whitespace = '\t\n\x0b\x0c\r '`), used by `_munge_whitespace`'s
translation table and by `wordsep_re`'s whitespace alternative. -/
def isPyWS (c : Char) : Bool :=
  c = '\t' ∨ c = '\n' ∨ c = '\x0b' ∨ c = '\x0c' ∨ c = '\r' ∨ c = ' '

/-- Python's Unicode whitespace, the class dropped by `str.strip()`
(CPython's `Py_UNICODE_ISSPACE`): the ASCII control whitespace
characters, the information separators U+001C–U+001F, space, NEL
(U+0085), NBSP (U+00A0), Ogham space mark (U+1680), the Unicode space
separators U+2000–U+200A, the line and paragraph separators
U+2028/U+2029, NNBSP (U+202F), MMSP (U+205F) and the ideographic space
(U+3000).  This is wider than `isPyWS`: `_wrap_chunks`'s
`chunk.strip() == ''` tests use this class, so a chunk such as a lone
U+00A0 — a *word* chunk for `wordsep_re` — is still dropped at a line
boundary. -/
def isPyUWS (c : Char) : Bool :=
  c = '\t' ∨ c = '\n' ∨ c = '\x0b' ∨ c = '\x0c' ∨ c = '\r' ∨
  c = '\x1c' ∨ c = '\x1d' ∨ c = '\x1e' ∨ c = '\x1f' ∨ c = ' ' ∨
  c = '\x85' ∨ c = '\xa0' ∨ c = '\u1680' ∨
  ('\u2000' ≤ c ∧ c ≤ '\u200a') ∨ c = '\u2028' ∨ c = '\u2029' ∨
  c = '\u202f' ∨ c = '\u205f' ∨ c = '\u3000'

/-- The six textwrap whitespace characters are Unicode whitespace. -/
theorem isPyUWS_of_isPyWS (c : Char) (h : isPyWS c = true) :
    isPyUWS c = true := by
  simp only [isPyWS, decide_eq_true_eq] at h
  rcases h with rfl | rfl | rfl | rfl | rfl | rfl <;> decide

/-- `str.expandtabs(tabsize)`: replaces each tab by spaces up to the
next multiple of `tabsize`, tracking the column, which resets after a
line break. -/
def expandtabsAux (tabsize : ℕ) : ℕ → List Char → List Char
  | _, [] => []
  | col, c :: cs =>
    if c = '\t' then
      let incr := tabsize - col % tabsize
      List.replicate incr ' ' ++ expandtabsAux tabsize (col + incr) cs
    else if c = '\n' ∨ c = '\r' then
      c :: expandtabsAux tabsize 0 cs
    else
      c :: expandtabsAux tabsize (col + 1) cs

/-- `TextWrapper._munge_whitespace`: `expand_tabs` then
`replace_whitespace` (each whitespace character becomes a space). -/
def mungeWhitespace (l : List Char) : List Char :=
  (expandtabsAux 8 0 l).map fun c => if isPyWS c then ' ' else c

/-- Maximal same-class character runs with respect to a whitespace
predicate `ws` (empty strings are filtered, which the run construction
makes automatic). -/
def splitRunsAux (ws : Char → Bool) : List Char → List Char →
    List (List Char)
  | [], acc => if acc.isEmpty then [] else [acc.reverse]
  | c :: cs, acc =>
    match acc with
    | [] => splitRunsAux ws cs [c]
    | a :: _ =>
      if ws c = ws a then splitRunsAux ws cs (c :: acc)
      else acc.reverse :: splitRunsAux ws cs [c]

/-- `TextWrapper._split`, modelled at whitespace boundaries: the chunks
of a munged text are its maximal runs of `wordsep_re`-whitespace
(`isPyWS`) and of non-whitespace. -/
def splitChunks (l : List Char) : List (List Char) :=
  splitRunsAux isPyWS l []

/-- `chunk.strip() == ''`: `str.strip()` with no argument drops all
Unicode whitespace, so this test uses `isPyUWS`, not the narrower
six-character class that formed the chunks. -/
def isAllWS (l : List Char) : Bool := l.all isPyUWS

/-- `chunk.rfind('-')`: index of the last `'-'`, if any. -/
def rfindDash : List Char → Option ℕ
  | [] => none
  | c :: cs =>
    match rfindDash cs with
    | some i => some (i + 1)
    | none => if c = '-' then some 0 else none

/-- The cut position chosen by `_handle_long_word`: `space_left`, or
one past the last hyphen strictly before it when the chunk does not fit
(`break_on_hyphens`) and that hyphen has a non-hyphen character before
it. -/
def hlwEndIdx (spaceLeft : ℕ) (chunk : List Char) : ℕ :=
  if spaceLeft < chunk.length then
    match rfindDash (chunk.take spaceLeft) with
    | some h =>
      if 0 < h ∧ (chunk.take h).any (fun c => c ≠ '-') then h + 1
      else spaceLeft
    | none => spaceLeft
  else spaceLeft

/-- `TextWrapper._handle_long_word` with `break_long_words` and
`break_on_hyphens`: cut `space_left` characters off the chunk (or just
past a suitable hyphen before that), returning the cut and the
remainder.  `width < 1` forces `space_left = 1`. -/
def handle_long_word (width curLen : ℕ) (chunk : List Char) :
    List Char × List Char :=
  let spaceLeft := if width < 1 then 1 else width - curLen
  (chunk.take (hlwEndIdx spaceLeft chunk),
   chunk.drop (hlwEndIdx spaceLeft chunk))

/-- Total character count of a chunk list (`sum(map(len, cur_line))`). -/
def totalChars (l : List (List Char)) : ℕ := (l.map List.length).sum

/-- The greedy inner loop of `_wrap_chunks`: keep taking chunks while
the accumulated length stays within the width. -/
def greedyTake (width : ℕ) : ℕ → List (List Char) →
    List (List Char) × List (List Char)
  | _, [] => ([], [])
  | curLen, c :: cs =>
    if curLen + c.length ≤ width then
      let tr := greedyTake width (curLen + c.length) cs
      (c :: tr.1, tr.2)
    else ([], c :: cs)

/-- The single trailing-whitespace drop of `_wrap_chunks`
(`if cur_line and cur_line[-1].strip() == '': del cur_line[-1]`). -/
def dropTrailingWS (cur : List (List Char)) : List (List Char) :=
  match cur.getLast? with
  | some l => if isAllWS l then cur.dropLast else cur
  | none => cur

/-- One outer iteration of `_wrap_chunks` after the leading-whitespace
drop: the emitted line (if non-empty) and the remaining chunks. -/
structure LineStep where
  line : Option (List Char)
  rest : List (List Char)

/-- Body of one `_wrap_chunks` iteration: greedy take, then
`_handle_long_word` when the next chunk exceeds the full width, then the
trailing-whitespace drop, emitting the line only if non-empty. -/
def wrapLine (width : ℕ) (chunks : List (List Char)) : LineStep :=
  let tr := greedyTake width 0 chunks
  match tr.2 with
  | [] =>
    let cur2 := dropTrailingWS tr.1
    ⟨if cur2.isEmpty then none else some cur2.flatten, []⟩
  | r :: rs =>
    if width < r.length then
      let hw := handle_long_word width (totalChars tr.1) r
      let cur2 := dropTrailingWS (tr.1 ++ [hw.1])
      ⟨if cur2.isEmpty then none else some cur2.flatten, hw.2 :: rs⟩
    else
      let cur2 := dropTrailingWS tr.1
      ⟨if cur2.isEmpty then none else some cur2.flatten, r :: rs⟩

/-- Termination measure: total characters plus chunk count. -/
def chunksMeasure (l : List (List Char)) : ℕ := totalChars l + l.length

/-- The outer loop of `_wrap_chunks`, fuel-indexed (the fuel is spent
once per iteration; `chunksMeasure` strictly decreases per iteration, so
`chunksMeasure + 1` fuel always suffices).  The `hasLines` flag tracks
`lines` being non-empty, which gates the leading-whitespace drop. -/
def wrapFuel (width : ℕ) : ℕ → Bool → List (List Char) →
    List (List Char)
  | 0, _, _ => []
  | _ + 1, _, [] => []
  | fuel + 1, hasLines, c :: cs =>
    let chunks1 := if hasLines && isAllWS c then cs else c :: cs
    let step := wrapLine width chunks1
    match step.line with
    | some l => l :: wrapFuel width fuel true step.rest
    | none => wrapFuel width fuel hasLines step.rest

/-- `textwrap.wrap(text, width)` under the options described above. -/
def textwrapWrap (text : List Char) (width : ℕ) : List (List Char) :=
  let chunks := splitChunks (mungeWhitespace text)
  wrapFuel width (chunksMeasure chunks + 1) false chunks

/-- `avg_char_px = max(font_size * 0.55, 1)` (0.55 modelled exactly as
`55/100`). -/
def avg_char_px (font_size : ℤ) : ℚ := max ((font_size : ℚ) * (55/100)) 1

/-- `max_chars = max(1, int(max_width_px / avg_char_px))`. -/
def maxCharsOf (font_size : ℤ) (max_width_px : ℚ) : ℕ :=
  (max 1 (pyInt (max_width_px / avg_char_px font_size))).toNat

/-- `max_width_px = (img_width * max_width_percent) / 100` in
`FFmpegService._wrap_text`. -/
def ffmpeg_max_width_px (img_width max_width_percent : ℤ) : ℚ :=
  ((img_width * max_width_percent : ℤ) : ℚ) / 100

/-- The `textwrap.wrap` call of `FFmpegService._wrap_text`. -/
def ffmpegWrapLines (text : String)
    (font_size img_width max_width_percent : ℤ) : List (List Char) :=
  textwrapWrap text.data
    (maxCharsOf font_size (ffmpeg_max_width_px img_width max_width_percent))

/-- `"\n".join(lines)`. -/
def pyJoinNL : List (List Char) → List Char
  | [] => []
  | [l] => l
  | l :: l' :: rest => l ++ '\n' :: pyJoinNL (l' :: rest)

/-- `FFmpegService._wrap_text(text, font_size, font_path, img_width,
max_width_percent)`: empty in, empty out; otherwise the wrapped lines
joined with newlines (empty again if there are no lines). -/
def ffmpeg_wrap_text (text : String) (font_size : ℤ) (_font_path : String)
    (img_width max_width_percent : ℤ) : String :=
  if text = "" then ""
  else if (ffmpegWrapLines text font_size img_width
      max_width_percent).isEmpty then ""
  else ⟨pyJoinNL (ffmpegWrapLines text font_size img_width
    max_width_percent)⟩

/-- The `textwrap.wrap` call of `SteinService._wrap_text` (its
`max_width_px` parameter is an `int`). -/
def steinWrapLines (text : String) (font_size max_width_px : ℤ) :
    List (List Char) :=
  textwrapWrap text.data (maxCharsOf font_size (max_width_px : ℚ))

/-- `SteinService._wrap_text(text, font_size, max_width_px)`: returns
the wrapped text and the line count. -/
def stein_wrap_text (text : String) (font_size max_width_px : ℤ) :
    String × ℕ :=
  if text = "" then ("", 0)
  else if (steinWrapLines text font_size max_width_px).isEmpty then ("", 0)
  else (⟨pyJoinNL (steinWrapLines text font_size max_width_px)⟩,
    (steinWrapLines text font_size max_width_px).length)

/-- Replacing the inserted line breaks by spaces (the unwrap step of the
round-trip claim). -/
def unwrapNL (l : List Char) : List Char :=
  l.map fun c => if c = '\n' then ' ' else c

/-- The characters of a text that are not Python Unicode whitespace
(the `str.strip()` class), in order. -/
def nonWS (l : List Char) : List Char := l.filter fun c => ! isPyUWS c

/-- Claim-side whitespace collapsing: runs of whitespace become single
spaces, leading/trailing whitespace removed. -/
def joinWithSpace : List (List Char) → List Char
  | [] => []
  | [w] => w
  | w :: w' :: rest => w ++ ' ' :: joinWithSpace (w' :: rest)

/-- Normal form of a text up to whitespace collapsing: its
non-whitespace runs (whitespace in Python's Unicode sense) joined by
single spaces. -/
def collapseWS (l : List Char) : List Char :=
  joinWithSpace ((splitRunsAux isPyUWS l []).filter fun r =>
    ! r.all isPyUWS)

end RunpodSuite

namespace RunpodSuite

/-- C1: a collage image-mapping request is accepted (no validation error)
iff its key set is exactly the layout's required key set — a missing key
or an extra key each cause rejection — for the POV, outfit-single and
fitpic layouts.  For fitpic the extra-key rejection comes from the
`Literal` key annotation (the field validator itself only checks
missing keys). -/
theorem slot_key_validation_iff (keys : Finset String) :
    (povValidate keys = .ok () ↔ keys = povRequired) ∧
    (outfitSingleValidate keys = .ok () ↔ keys = outfitSingleRequired) ∧
    (fitpicValidate keys = .ok () ↔ keys = fitpicRequired) := by
  refine ⟨?_, ?_, ?_⟩
  · constructor
    · intro h
      unfold povValidate validateRequestImages povValidateImageKeys at h
      split_ifs at h with hs h1 h2
      exact Finset.Subset.antisymm hs
        (Finset.sdiff_eq_empty_iff_subset.mp (not_not.mp h1))
    · rintro rfl
      unfold povValidate validateRequestImages povValidateImageKeys
      simp
  · constructor
    · intro h
      unfold outfitSingleValidate validateRequestImages
        outfitSingleValidateImageKeys at h
      split_ifs at h with hs h1 h2
      exact Finset.Subset.antisymm hs
        (Finset.sdiff_eq_empty_iff_subset.mp (not_not.mp h1))
    · rintro rfl
      unfold outfitSingleValidate validateRequestImages
        outfitSingleValidateImageKeys
      simp
  · constructor
    · intro h
      unfold fitpicValidate validateRequestImages
        fitpicValidateImageKeys at h
      split_ifs at h with hs h1
      exact Finset.Subset.antisymm hs
        (Finset.sdiff_eq_empty_iff_subset.mp (not_not.mp h1))
    · rintro rfl
      unfold fitpicValidate validateRequestImages fitpicValidateImageKeys
      simp

/-- C2 counterexample: a failing `outfit` job does *not* yield a result
with a `"status"` tag equal to `"error"` and a `"message"` field — the
result dict is `{"error": str(e)}`, with neither key present. -/
theorem async_handler_error_shape_counterexample :
    (async_handler "outfit" (.error "boom")).lookup "status" = none ∧
    (async_handler "outfit" (.error "boom")).lookup "message" = none ∧
    (async_handler "outfit" (.error "boom")).lookup "error" = some "boom" := by
  decide

/-- C2 (amended): whenever any stage of a routed action's handler raises,
the top-level handler returns a dict of the fixed shape
`{"error": str(e)}` — the cause is carried under the `"error"` key (for
the health action additionally `"status": "unhealthy"`), never under a
`"status" = "error"` / `"message"` pair; no exception escapes
untranslated. -/
theorem async_handler_translates_exceptions (action e : String)
    (h : action ∈ handledActions) :
    (async_handler action (.error e)).lookup "error" = some e ∧
    (async_handler action (.error e)).lookup "status" ≠ some "error" := by
  fin_cases h <;>
    simp [async_handler, handle_outfit, handle_outfit_single, handle_pov,
      handle_merge, handle_overlay, handle_rembg, handle_templates_list,
      handle_template_get, handle_template_create, handle_template_update,
      handle_template_delete, handle_template_duplicate, handle_health,
      errorResult, List.lookup]

/-- Witness for C2's amended theorem at the `merge` action. -/
theorem async_handler_translates_exceptions_witness :
    (async_handler "merge" (.error "download failed")).lookup "error"
        = some "download failed" ∧
    (async_handler "merge" (.error "download failed")).lookup "status"
        ≠ some "error" :=
  async_handler_translates_exceptions "merge" "download failed" (by decide)

/-- C4: in the `"both"` trim mode, when the target duration is shorter
than the original, the computed range is
`start = (orig − target)/2`, `end = orig − (orig − target)/2`; the excess
removed from the two ends sums to exactly `orig − target` and the kept
range has length exactly `target`. -/
theorem trim_both_splits_excess (od td : ℚ) (h : td < od) :
    trim_video od td "both"
        = .cut ((od - td) / 2) (od - (od - td) / 2) td ∧
    (od - td) / 2 + (od - (od - (od - td) / 2)) = od - td ∧
    (od - (od - td) / 2) - (od - td) / 2 = td := by
  refine ⟨?_, by ring, by ring⟩
  unfold trim_video
  rw [if_neg (not_le.mpr h)]
  simp only [reduceIte, String.reduceEq]

/-- Witness for C4 at `original_duration = 10`, `target_duration = 4`. -/
theorem trim_both_splits_excess_witness :
    trim_video 10 4 "both" = .cut ((10 - 4) / 2) (10 - (10 - 4) / 2) 4 ∧
    (10 - 4 : ℚ) / 2 + (10 - (10 - (10 - 4) / 2)) = 10 - 4 ∧
    ((10 : ℚ) - (10 - 4) / 2) - (10 - 4) / 2 = 4 :=
  trim_both_splits_excess 10 4 (by norm_num)

/-- C5: for every trim mode, when `target_duration ≥ original_duration`
the trim is a no-op — `trimmed = False`, duration unchanged, no ffmpeg
re-encode is issued — and in general trimming never extends: the
resulting duration is at most the original. -/
theorem trim_video_noop_when_target_ge (od td : ℚ) (mode : String) :
    (od ≤ td → trim_video od td mode = .noop od) ∧
    (trim_video od td mode).duration ≤ od := by
  constructor
  · intro h
    unfold trim_video
    rw [if_pos h]
  · unfold trim_video
    split_ifs with h h1 h2 <;> simp [TrimOutcome.duration] <;>
      linarith [not_le.mp h]

/-- Witness for C5 at `original_duration = 5`, `target_duration = 7`,
mode `"start"`. -/
theorem trim_video_noop_witness :
    trim_video 5 7 "start" = .noop 5 ∧
    (trim_video 5 7 "start").duration ≤ 5 :=
  ⟨(trim_video_noop_when_target_ge 5 7 "start").1 (by norm_num),
   (trim_video_noop_when_target_ge 5 7 "start").2⟩

/-- C9: scaling is idempotent on conforming clips — when both probed
dimensions equal the target, `scale_video` takes the copy path
(`success = True`, `scaled = False`) and the output bytes are identical
to the input bytes; any other probe result is re-encoded
(`scaled = True`, output produced by the encoder). -/
theorem scale_video_copy_iff (cw ch : Option ℤ) (tw th : ℤ)
    (inp : List ℕ) (enc : List ℕ → List ℕ) :
    (cw = some tw ∧ ch = some th →
      scale_video cw ch tw th inp enc
        = { success := true, scaled := false, output := inp }) ∧
    (¬(cw = some tw ∧ ch = some th) →
      scale_video cw ch tw th inp enc
        = { success := true, scaled := true, output := enc inp }) := by
  constructor
  · intro h
    unfold scale_video
    rw [if_pos h]
  · intro h
    unfold scale_video
    rw [if_neg h]

/-- Witness for C9: a 1080×1920 clip scaled to 1080×1920 is copied
byte-identically. -/
theorem scale_video_copy_witness :
    scale_video (some 1080) (some 1920) 1080 1920 [7, 7, 7] id
      = { success := true, scaled := false, output := [7, 7, 7] } :=
  (scale_video_copy_iff (some 1080) (some 1920) 1080 1920 [7, 7, 7] id).1
    ⟨rfl, rfl⟩

/-- A name outside the nine preset keys is mapped to `none` by the
preset table. -/
theorem positionPresets_eq_none_of_not_mem (p : String)
    (h : p ∉ presetNames) : positionPresets p = none := by
  simp only [presetNames, List.mem_cons, List.not_mem_nil, or_false,
    not_or] at h
  obtain ⟨h1, h2, h3, h4, h5, h6, h7, h8, h9⟩ := h
  unfold positionPresets
  split <;> simp_all

/-- C10: `_calculate_position` is total and falls back to the centre
preset: an effective position outside the nine presets (and not a
satisfied custom request), or `"custom"` without both coordinates
available, yields `("(w-text_w)/2", "(h-text_h)/2")`; `"custom"` with
overrides carrying both coordinates yields exactly those coordinates as
strings. -/
theorem calculate_position_fallback (style : TextStyle)
    (o : Option TextOverrideOptions) :
    (effectivePosition style o ∉ presetNames →
      effectivePosition style o ≠ "custom" →
      calculate_position style o = ("(w-text_w)/2", "(h-text_h)/2")) ∧
    (effectivePosition style o = "custom" →
      (o.bind TextOverrideOptions.custom_x = none ∨
       o.bind TextOverrideOptions.custom_y = none) →
      calculate_position style o = ("(w-text_w)/2", "(h-text_h)/2")) ∧
    (∀ ov cx cy, o = some ov → ov.custom_x = some cx →
      ov.custom_y = some cy → effectivePosition style o = "custom" →
      calculate_position style o = (toString cx, toString cy)) := by
  refine ⟨?_, ?_, ?_⟩
  · intro hnp hnc
    have hpp := positionPresets_eq_none_of_not_mem _ hnp
    cases o with
    | none => simp [calculate_position, hpp]
    | some ov => simp [calculate_position, hnc, hpp]
  · intro hc hnone
    cases o with
    | none => simp [calculate_position, hc, positionPresets]
    | some ov =>
      cases hx : ov.custom_x with
      | none => simp [calculate_position, hc, hx, positionPresets]
      | some cx =>
        cases hy : ov.custom_y with
        | none => simp [calculate_position, hc, hx, hy, positionPresets]
        | some cy => simp [hx, hy] at hnone
  · rintro ov cx cy rfl hx hy hc
    simp [calculate_position, hc, hx, hy]

/-- `random.uniform(a, b)` stays inside `[a, b]` when the unit draw is
in `[0, 1]` and `a ≤ b`. -/
theorem pyUniform_mem (a b u : ℚ) (hab : a ≤ b) (h0 : 0 ≤ u)
    (h1 : u ≤ 1) : a ≤ pyUniform a b u ∧ pyUniform a b u ≤ b := by
  unfold pyUniform
  constructor <;> nlinarith

/-- `random.randint(lo, hi)` stays inside the inclusive range. -/
theorem pyRandint_mem (lo hi : ℤ) (n : ℕ) (hlh : lo ≤ hi) :
    lo ≤ pyRandint lo hi n ∧ pyRandint lo hi n ≤ hi := by
  unfold pyRandint
  have hk : 0 < (hi - lo + 1).toNat := by omega
  have hub : (n % (hi - lo + 1).toNat : ℕ) < (hi - lo + 1).toNat :=
    Nat.mod_lt _ hk
  omega

/-- C7: every parameter drawn by the randomized-uniqueness transform
lies within its declared bounds — fade-in duration in `[0.20, 1.25]`,
black-overlay opacity in `[0.69, 0.88]` (in particular strictly below
full opacity), slowdown percent in `[0, 20]`, stretch percent in
`[0.3, 12.0]`, and every logo position inside the safe margins
`75 ≤ x ≤ 1080 − 333 − 75`, `75 ≤ y ≤ 1920 − 333 − 75`. -/
theorem stein_params_in_bounds (unit : ℕ → ℚ) (coin : ℕ) (nat : ℕ → ℕ)
    (n : ℕ) (h : ∀ i, 0 ≤ unit i ∧ unit i ≤ 1) :
    (20/100 ≤ (generateSteinParams unit coin nat n).fade_duration ∧
      (generateSteinParams unit coin nat n).fade_duration ≤ 125/100) ∧
    (69/100 ≤ (generateSteinParams unit coin nat n).fade_black_opacity ∧
      (generateSteinParams unit coin nat n).fade_black_opacity ≤ 88/100 ∧
      (generateSteinParams unit coin nat n).fade_black_opacity < 1) ∧
    (0 ≤ (generateSteinParams unit coin nat n).slowdown_percent ∧
      (generateSteinParams unit coin nat n).slowdown_percent ≤ 20) ∧
    (3/10 ≤ (generateSteinParams unit coin nat n).stretch_percent ∧
      (generateSteinParams unit coin nat n).stretch_percent ≤ 12) ∧
    (∀ q ∈ (generateSteinParams unit coin nat n).positions,
      75 ≤ q.1 ∧ q.1 ≤ 1080 - 333 - 75 ∧
      75 ≤ q.2 ∧ q.2 ≤ 1920 - 333 - 75) := by
  have hfade := pyUniform_mem MIN_FADE_IN MAX_FADE_IN (unit 0)
    (by norm_num [MIN_FADE_IN, MAX_FADE_IN]) (h 0).1 (h 0).2
  have hop := pyUniform_mem MIN_FADE_BLACK_OPACITY MAX_FADE_BLACK_OPACITY
    (unit 1)
    (by norm_num [MIN_FADE_BLACK_OPACITY, MAX_FADE_BLACK_OPACITY])
    (h 1).1 (h 1).2
  have hst := pyUniform_mem MIN_STRETCH_PERCENT MAX_STRETCH_PERCENT
    (unit 2)
    (by norm_num [MIN_STRETCH_PERCENT, MAX_STRETCH_PERCENT])
    (h 2).1 (h 2).2
  have hsl := pyUniform_mem MIN_SLOWDOWN_PERCENT MAX_SLOWDOWN_PERCENT
    (unit 3)
    (by norm_num [MIN_SLOWDOWN_PERCENT, MAX_SLOWDOWN_PERCENT])
    (h 3).1 (h 3).2
  refine ⟨?_, ?_, ?_, ?_, ?_⟩
  · simpa [generateSteinParams, MIN_FADE_IN, MAX_FADE_IN] using hfade
  · have h1 := hop.1
    have h2 := hop.2
    simp only [MIN_FADE_BLACK_OPACITY, MAX_FADE_BLACK_OPACITY] at h1 h2
    refine ⟨?_, ?_, ?_⟩ <;>
      · simp only [generateSteinParams, MIN_FADE_BLACK_OPACITY,
          MAX_FADE_BLACK_OPACITY]
        linarith
  · simpa [generateSteinParams, MIN_SLOWDOWN_PERCENT,
      MAX_SLOWDOWN_PERCENT] using hsl
  · simpa [generateSteinParams, MIN_STRETCH_PERCENT,
      MAX_STRETCH_PERCENT] using hst
  · intro q hq
    simp only [generateSteinParams, generate_random_positions,
      List.mem_map, List.mem_range] at hq
    obtain ⟨i, _, rfl⟩ := hq
    have hx := pyRandint_mem LOGO_MARGIN
      (CANVAS_WIDTH - LOGO_SIZE - LOGO_MARGIN) (nat (2 * i))
      (by norm_num [LOGO_MARGIN, CANVAS_WIDTH, LOGO_SIZE])
    have hy := pyRandint_mem LOGO_MARGIN
      (CANVAS_HEIGHT - LOGO_SIZE - LOGO_MARGIN) (nat (2 * i + 1))
      (by norm_num [LOGO_MARGIN, CANVAS_HEIGHT, LOGO_SIZE])
    simp only [LOGO_MARGIN, CANVAS_WIDTH, CANVAS_HEIGHT, LOGO_SIZE]
      at hx hy
    exact ⟨by simpa using hx.1, by simpa using hx.2,
      by simpa using hy.1, by simpa using hy.2⟩

/-- Witness for C7 with all unit draws `1/2` and all raw integer
draws `0`, three logo positions. -/
theorem stein_params_in_bounds_witness :
    (20/100 ≤ (generateSteinParams (fun _ => 1/2) 0 (fun _ => 0) 3).fade_duration ∧
      (generateSteinParams (fun _ => 1/2) 0 (fun _ => 0) 3).fade_duration ≤ 125/100) ∧
    (69/100 ≤ (generateSteinParams (fun _ => 1/2) 0 (fun _ => 0) 3).fade_black_opacity ∧
      (generateSteinParams (fun _ => 1/2) 0 (fun _ => 0) 3).fade_black_opacity ≤ 88/100 ∧
      (generateSteinParams (fun _ => 1/2) 0 (fun _ => 0) 3).fade_black_opacity < 1) ∧
    (0 ≤ (generateSteinParams (fun _ => 1/2) 0 (fun _ => 0) 3).slowdown_percent ∧
      (generateSteinParams (fun _ => 1/2) 0 (fun _ => 0) 3).slowdown_percent ≤ 20) ∧
    (3/10 ≤ (generateSteinParams (fun _ => 1/2) 0 (fun _ => 0) 3).stretch_percent ∧
      (generateSteinParams (fun _ => 1/2) 0 (fun _ => 0) 3).stretch_percent ≤ 12) ∧
    (∀ q ∈ (generateSteinParams (fun _ => 1/2) 0 (fun _ => 0) 3).positions,
      75 ≤ q.1 ∧ q.1 ≤ 1080 - 333 - 75 ∧
      75 ≤ q.2 ∧ q.2 ≤ 1920 - 333 - 75) :=
  stein_params_in_bounds (fun _ => 1/2) 0 (fun _ => 0) 3
    (fun _ => by norm_num)

/-- The wrap recursion on `coords ++ [last]` is the right-to-left fold
of `condWrap` over the coordinates paired with the thresholds
`(i+1)*interval, (i+2)*interval, ...`. -/
theorem nestedIfExpr_append (interval : ℕ) :
    ∀ (cs : List String) (i : ℕ) (c : String),
    nestedIfExpr interval i (cs ++ [c])
      = (cs.zip ((List.range' (i + 1) cs.length).map (· * interval))).foldr
          (fun ct acc => condWrap ct.2 ct.1 acc) c := by
  intro cs
  induction cs with
  | nil => intro i c; rfl
  | cons a as ih =>
    intro i c
    cases as with
    | nil => rfl
    | cons b bs =>
      have hstep : nestedIfExpr interval i ((a :: b :: bs) ++ [c])
          = condWrap ((i + 1) * interval) a
              (nestedIfExpr interval (i + 1) ((b :: bs) ++ [c])) := rfl
      rw [hstep, ih (i + 1) c]
      simp only [List.length_cons, List.range'_succ, List.map_cons,
        List.zip_cons_cons, List.foldr_cons]

/-- Selection semantics of the nested conditional: at nesting level `k`,
index `i` into the remaining coordinates is selected exactly on
`[(k+i)*interval, (k+i+1)*interval)`. -/
theorem nestedIfDenote_select_aux (interval : ℕ) (dflt : ℤ) :
    ∀ (cs : List ℤ) (k i : ℕ) (t : ℚ), i < cs.length →
    (((k + i) * interval : ℕ) : ℚ) ≤ t →
    t < (((k + i + 1) * interval : ℕ) : ℚ) →
    nestedIfDenote interval dflt k cs t = cs.getD i dflt := by
  intro cs
  induction cs with
  | nil => intro k i t hi _ _; simp at hi
  | cons a as ih =>
    intro k i t hi hlo hhi
    cases as with
    | nil =>
      have hz : i = 0 := by simpa using hi
      subst hz
      rfl
    | cons b bs =>
      cases i with
      | zero =>
        have hlt : t < (((k + 1) * interval : ℕ) : ℚ) := by
          have h1 : k + 0 + 1 = k + 1 := by omega
          rw [h1] at hhi
          exact hhi
        show (if t < (((k + 1) * interval : ℕ) : ℚ) then a
          else nestedIfDenote interval dflt (k + 1) (b :: bs) t) = _
        rw [if_pos hlt]
        rfl
      | succ j =>
        have hge : (((k + 1) * interval : ℕ) : ℚ) ≤ t := by
          refine le_trans ?_ hlo
          have : (k + 1) * interval ≤ (k + (j + 1)) * interval :=
            Nat.mul_le_mul_right _ (by omega)
          exact_mod_cast this
        show (if t < (((k + 1) * interval : ℕ) : ℚ) then a
          else nestedIfDenote interval dflt (k + 1) (b :: bs) t) = _
        rw [if_neg (not_lt.mpr hge)]
        have h1 : k + 1 + j = k + (j + 1) := by omega
        have h2 : k + 1 + j + 1 = k + (j + 1) + 1 := by omega
        have := ih (k + 1) j t
          (by simpa using Nat.lt_of_succ_lt_succ hi)
          (by rw [h1]; exact hlo) (by rw [h2]; exact hhi)
        simpa using this

/-- After the last threshold the nested conditional selects the final
coordinate. -/
theorem nestedIfDenote_last_aux (interval : ℕ) (dflt : ℤ) :
    ∀ (cs : List ℤ) (k : ℕ) (t : ℚ), cs ≠ [] →
    (((k + cs.length - 1) * interval : ℕ) : ℚ) ≤ t →
    nestedIfDenote interval dflt k cs t = cs.getLastD dflt := by
  intro cs
  induction cs with
  | nil => intro k t h _; exact absurd rfl h
  | cons a as ih =>
    intro k t _ hlo
    cases as with
    | nil => rfl
    | cons b bs =>
      have hge : (((k + 1) * interval : ℕ) : ℚ) ≤ t := by
        refine le_trans ?_ hlo
        have : (k + 1) * interval
            ≤ (k + (a :: b :: bs).length - 1) * interval :=
          Nat.mul_le_mul_right _
            (by simp only [List.length_cons]; omega)
        exact_mod_cast this
      show (if t < (((k + 1) * interval : ℕ) : ℚ) then a
        else nestedIfDenote interval dflt (k + 1) (b :: bs) t) = _
      rw [if_neg (not_lt.mpr hge)]
      have h1 : k + 1 + (b :: bs).length - 1
          = k + (a :: b :: bs).length - 1 := by
        simp only [List.length_cons]; omega
      have := ih (k + 1) t (by simp) (by rw [h1]; exact hlo)
      simpa using this

/-- C8: `_build_position_expression` returns the bare coordinate string
for a single waypoint; for `N ≥ 2` waypoints it returns the right-to-left
nested conditional with exactly `N−1` `if(lt(t\,·)\,·\,·)` stages whose
thresholds are `interval, 2·interval, …, (N−1)·interval`
(`interval = POSITION_CHANGE_INTERVAL = 2` seconds), and that conditional
denotes waypoint `i` for `t ∈ [i·interval, (i+1)·interval)` and the last
waypoint from the final threshold on. -/
theorem build_position_expression_correct (ps : List (ℤ × ℤ))
    (idx : ℕ) :
    (∀ p, ps = [p] →
      build_position_expression ps idx = toString (coordAt p idx)) ∧
    (∀ qs q, ps = qs ++ [q] → qs ≠ [] →
      build_position_expression ps idx
        = specNestedExpr POSITION_CHANGE_INTERVAL
            (qs.map fun p => toString (coordAt p idx))
            (toString (coordAt q idx))) ∧
    (∀ i t, i < ps.length →
      ((i * POSITION_CHANGE_INTERVAL : ℕ) : ℚ) ≤ t →
      t < (((i + 1) * POSITION_CHANGE_INTERVAL : ℕ) : ℚ) →
      nestedIfDenote POSITION_CHANGE_INTERVAL 0 0
          (ps.map fun p => coordAt p idx) t
        = (ps.map fun p => coordAt p idx).getD i 0) ∧
    (∀ t, ps ≠ [] →
      (((ps.length - 1) * POSITION_CHANGE_INTERVAL : ℕ) : ℚ) ≤ t →
      nestedIfDenote POSITION_CHANGE_INTERVAL 0 0
          (ps.map fun p => coordAt p idx) t
        = (ps.map fun p => coordAt p idx).getLastD 0) := by
  refine ⟨?_, ?_, ?_, ?_⟩
  · rintro p rfl
    rfl
  · rintro qs q rfl hqs
    match qs, hqs with
    | a :: as, _ =>
      have hbuild : build_position_expression ((a :: as) ++ [q]) idx
          = nestedIfExpr POSITION_CHANGE_INTERVAL 0
              (((a :: as) ++ [q]).map fun p => toString (coordAt p idx)) := by
        cases as <;> rfl
      rw [hbuild, List.map_append,
        show List.map (fun p => toString (coordAt p idx)) [q]
          = [toString (coordAt q idx)] from rfl,
        nestedIfExpr_append]
      rfl
  · intro i t hi hlo hhi
    have := nestedIfDenote_select_aux POSITION_CHANGE_INTERVAL 0
      (ps.map fun p => coordAt p idx) 0 i t (by simpa using hi)
      (by simpa using hlo) (by simpa using hhi)
    simpa using this
  · intro t hps hlo
    have := nestedIfDenote_last_aux POSITION_CHANGE_INTERVAL 0
      (ps.map fun p => coordAt p idx) 0 t (by simpa using hps)
      (by simpa using hlo)
    simpa using this

/-- Witness for C8 at three concrete waypoints: the expression equals
the claim-side nested form, and at `t = 3` seconds the conditional
selects the second waypoint. -/
theorem build_position_expression_correct_witness :
    build_position_expression [(100, 200), (300, 400), (500, 600)] 0
      = specNestedExpr POSITION_CHANGE_INTERVAL
          (([(100, 200), (300, 400)] : List (ℤ × ℤ)).map fun p =>
            toString (coordAt p 0))
          (toString (coordAt ((500 : ℤ), (600 : ℤ)) 0)) ∧
    nestedIfDenote POSITION_CHANGE_INTERVAL 0 0
        (([(100, 200), (300, 400), (500, 600)] : List (ℤ × ℤ)).map
          fun p => coordAt p 0) 3
      = (([(100, 200), (300, 400), (500, 600)] : List (ℤ × ℤ)).map
          fun p => coordAt p 0).getD 1 0 :=
  ⟨(build_position_expression_correct
      [(100, 200), (300, 400), (500, 600)] 0).2.1
      [(100, 200), (300, 400)] (500, 600) rfl (by decide),
   (build_position_expression_correct
      [(100, 200), (300, 400), (500, 600)] 0).2.2.1 1 3 (by decide)
      (by norm_num [POSITION_CHANGE_INTERVAL])
      (by norm_num [POSITION_CHANGE_INTERVAL])⟩

/-! ### Properties of the text-wrap embedding -/

theorem totalChars_nil : totalChars [] = 0 := rfl

theorem totalChars_cons (c : List Char) (cs : List (List Char)) :
    totalChars (c :: cs) = c.length + totalChars cs := by
  simp [totalChars]

theorem totalChars_append (a b : List (List Char)) :
    totalChars (a ++ b) = totalChars a + totalChars b := by
  simp [totalChars]

theorem totalChars_eq_length_flatten (l : List (List Char)) :
    totalChars l = l.flatten.length := by
  induction l with
  | nil => rfl
  | cons c cs ih => simp [totalChars_cons, ih]

theorem totalChars_dropLast_le (l : List (List Char)) :
    totalChars l.dropLast ≤ totalChars l := by
  induction l with
  | nil => simp
  | cons c cs ih =>
    cases cs with
    | nil => simp [totalChars]
    | cons d ds =>
      rw [List.dropLast_cons_of_ne_nil (by simp)]
      rw [totalChars_cons, totalChars_cons]
      exact Nat.add_le_add_left ih _

theorem chunksMeasure_nil : chunksMeasure [] = 0 := rfl

theorem chunksMeasure_cons (c : List Char) (cs : List (List Char)) :
    chunksMeasure (c :: cs) = c.length + 1 + chunksMeasure cs := by
  simp [chunksMeasure, totalChars_cons]
  omega

theorem chunksMeasure_append (a b : List (List Char)) :
    chunksMeasure (a ++ b) = chunksMeasure a + chunksMeasure b := by
  simp [chunksMeasure, totalChars_append]
  omega

theorem chunksMeasure_pos (c : List Char) (cs : List (List Char)) :
    0 < chunksMeasure (c :: cs) := by
  rw [chunksMeasure_cons]; omega

theorem greedyTake_append (width : ℕ) :
    ∀ (cs : List (List Char)) (a : ℕ),
    (greedyTake width a cs).1 ++ (greedyTake width a cs).2 = cs := by
  intro cs
  induction cs with
  | nil => intro a; rfl
  | cons c cs ih =>
    intro a
    unfold greedyTake
    split_ifs with h
    · simpa using ih (a + c.length)
    · rfl

theorem greedyTake_len_le (width : ℕ) :
    ∀ (cs : List (List Char)) (a : ℕ), a ≤ width →
    a + totalChars (greedyTake width a cs).1 ≤ width := by
  intro cs
  induction cs with
  | nil => intro a ha; simpa [greedyTake, totalChars] using ha
  | cons c cs ih =>
    intro a ha
    unfold greedyTake
    split_ifs with h
    · have := ih (a + c.length) h
      simp only [totalChars_cons]
      omega
    · simpa [totalChars] using ha

theorem greedyTake_stop (width : ℕ) :
    ∀ (cs : List (List Char)) (a : ℕ) (t rs : List (List Char))
      (r : List Char),
    greedyTake width a cs = (t, r :: rs) →
    width < a + totalChars t + r.length := by
  intro cs
  induction cs with
  | nil => intro a t rs r h; simp [greedyTake] at h
  | cons c cs ih =>
    intro a t rs r h
    unfold greedyTake at h
    split_ifs at h with hle
    · obtain ⟨h1, h2⟩ := Prod.mk.injEq .. ▸ h
      subst h1
      have := ih (a + c.length) _ _ _
        (by rw [← h2])
      rw [totalChars_cons]
      omega
    · obtain ⟨h1, h2⟩ := Prod.mk.injEq .. ▸ h
      subst h1
      cases h2
      simpa [totalChars] using hle

theorem rfindDash_lt : ∀ (l : List Char) (h : ℕ),
    rfindDash l = some h → h < l.length := by
  intro l
  induction l with
  | nil => intro h hh; simp [rfindDash] at hh
  | cons c cs ih =>
    intro h hh
    unfold rfindDash at hh
    cases hr : rfindDash cs with
    | some i =>
      rw [hr] at hh
      cases hh
      have := ih i hr
      simp
      omega
    | none =>
      rw [hr] at hh
      split_ifs at hh
      cases hh
      simp

theorem handle_long_word_split (width curLen : ℕ) (chunk : List Char) :
    (handle_long_word width curLen chunk).1
        ++ (handle_long_word width curLen chunk).2 = chunk := by
  unfold handle_long_word
  exact List.take_append_drop _ _

theorem hlwEndIdx_le (spaceLeft : ℕ) (chunk : List Char) :
    hlwEndIdx spaceLeft chunk ≤ spaceLeft := by
  unfold hlwEndIdx
  split_ifs with h1
  · cases hr : rfindDash (chunk.take spaceLeft) with
    | some h =>
      have := rfindDash_lt _ _ hr
      simp only [List.length_take] at this
      dsimp only
      split_ifs with h2
      · omega
      · exact le_rfl
    | none => exact le_rfl
  · exact le_rfl

theorem hlwEndIdx_pos (spaceLeft : ℕ) (chunk : List Char)
    (h : 1 ≤ spaceLeft) : 1 ≤ hlwEndIdx spaceLeft chunk := by
  unfold hlwEndIdx
  split_ifs with h1
  · cases hr : rfindDash (chunk.take spaceLeft) with
    | some hy => dsimp only; split_ifs <;> omega
    | none => exact h
  · exact h

theorem handle_long_word_fst_le (width curLen : ℕ) (chunk : List Char)
    (hw : 1 ≤ width) (hc : curLen ≤ width) :
    curLen + (handle_long_word width curLen chunk).1.length ≤ width := by
  unfold handle_long_word
  have hnlt : ¬ width < 1 := by omega
  simp only [hnlt, if_false, List.length_take]
  have := hlwEndIdx_le (width - curLen) chunk
  have := Nat.min_le_left (hlwEndIdx (width - curLen) chunk) chunk.length
  omega

theorem handle_long_word_fst_pos (width : ℕ) (chunk : List Char)
    (hc : 1 ≤ chunk.length) :
    1 ≤ (handle_long_word width 0 chunk).1.length := by
  unfold handle_long_word
  simp only [List.length_take, Nat.sub_zero]
  have hpos : 1 ≤ hlwEndIdx (if width < 1 then 1 else width) chunk :=
    hlwEndIdx_pos _ _ (by split_ifs <;> omega)
  omega

theorem dropTrailingWS_cases (cur : List (List Char)) :
    dropTrailingWS cur = cur ∨ dropTrailingWS cur = cur.dropLast := by
  unfold dropTrailingWS
  cases h : cur.getLast? with
  | none => left; rfl
  | some l =>
    by_cases hws : isAllWS l
    · right; simp [hws]
    · left; simp [hws]

theorem totalChars_dropTrailingWS_le (cur : List (List Char)) :
    totalChars (dropTrailingWS cur) ≤ totalChars cur := by
  rcases dropTrailingWS_cases cur with h | h <;> rw [h]
  exact totalChars_dropLast_le cur

theorem chunksMeasure_pos_of_ne_nil (l : List (List Char))
    (h : l ≠ []) : 0 < chunksMeasure l := by
  cases l with
  | nil => exact absurd rfl h
  | cons c cs => exact chunksMeasure_pos c cs

theorem chunksMeasure_tail_le (c : List Char) (cs : List (List Char)) :
    chunksMeasure cs ≤ chunksMeasure (c :: cs) := by
  rw [chunksMeasure_cons]; omega

theorem wrapLine_nil (width : ℕ) :
    wrapLine width [] = ⟨none, []⟩ := rfl

theorem wrapFuel_nil (width : ℕ) : ∀ (f : ℕ) (hl : Bool),
    wrapFuel width f hl [] = [] := by
  intro f hl
  cases f <;> rfl

theorem wrapFuel_succ (width f : ℕ) (hl : Bool) (c : List Char)
    (cs : List (List Char)) :
    wrapFuel width (f + 1) hl (c :: cs)
      = (match (wrapLine width
            (if hl && isAllWS c then cs else c :: cs)).line with
         | some l => l :: wrapFuel width f true
             (wrapLine width
               (if hl && isAllWS c then cs else c :: cs)).rest
         | none => wrapFuel width f hl
             (wrapLine width
               (if hl && isAllWS c then cs else c :: cs)).rest) := rfl

/-- Every line emitted by a `_wrap_chunks` iteration fits the width. -/
theorem wrapLine_line_length (width : ℕ) (hw : 1 ≤ width)
    (chunks : List (List Char)) (l : List Char)
    (hl : (wrapLine width chunks).line = some l) : l.length ≤ width := by
  rcases hg : greedyTake width 0 chunks with ⟨cur, rest⟩
  have hcur : totalChars cur ≤ width := by
    have := greedyTake_len_le width chunks 0 (by omega)
    rw [hg] at this
    simpa using this
  have hfit : ∀ (base : List (List Char)),
      totalChars base ≤ width →
      (if (dropTrailingWS base).isEmpty then none
        else some (dropTrailingWS base).flatten) = some l →
      l.length ≤ width := by
    intro base hbase hsome
    split_ifs at hsome
    cases hsome
    rw [← totalChars_eq_length_flatten]
    exact le_trans (totalChars_dropTrailingWS_le base) hbase
  cases rest with
  | nil =>
    simp only [wrapLine, hg] at hl
    exact hfit cur hcur hl
  | cons r rs =>
    simp only [wrapLine, hg] at hl
    by_cases hlen : width < r.length
    · rw [if_pos hlen] at hl
      refine hfit _ ?_ hl
      rw [totalChars_append, totalChars_cons, totalChars_nil]
      have := handle_long_word_fst_le width (totalChars cur) r hw hcur
      omega
    · rw [if_neg hlen] at hl
      exact hfit cur hcur hl

/-- Each `_wrap_chunks` iteration strictly decreases the measure. -/
theorem wrapLine_rest_lt (width : ℕ) (chunks : List (List Char))
    (h : chunks ≠ []) :
    chunksMeasure (wrapLine width chunks).rest < chunksMeasure chunks := by
  rcases hg : greedyTake width 0 chunks with ⟨cur, rest⟩
  have happ : cur ++ rest = chunks := by
    have := greedyTake_append width chunks 0
    rw [hg] at this
    simpa using this
  cases rest with
  | nil =>
    simp only [wrapLine, hg]
    exact chunksMeasure_pos_of_ne_nil chunks h
  | cons r rs =>
    simp only [wrapLine, hg]
    by_cases hlen : width < r.length
    · rw [if_pos hlen]
      dsimp only
      have hlen1 : (handle_long_word width (totalChars cur) r).1.length
          + (handle_long_word width (totalChars cur) r).2.length
          = r.length := by
        have := congrArg List.length
          (handle_long_word_split width (totalChars cur) r)
        simpa using this
      rw [← happ, chunksMeasure_append, chunksMeasure_cons,
        chunksMeasure_cons]
      by_cases hcur : cur = []
      · subst hcur
        have h0 : totalChars ([] : List (List Char)) = 0 := rfl
        rw [h0] at hlen1 ⊢
        have hm0 : chunksMeasure ([] : List (List Char)) = 0 := rfl
        rw [hm0]
        have hrpos : 1 ≤ r.length := by omega
        have hpos := handle_long_word_fst_pos width r hrpos
        omega
      · have hmcur := chunksMeasure_pos_of_ne_nil cur hcur
        omega
    · rw [if_neg hlen]
      dsimp only
      have hstop := greedyTake_stop width chunks 0 cur rs r hg
      rw [← happ, chunksMeasure_append]
      have hmeq : chunksMeasure cur = totalChars cur + cur.length := rfl
      omega

/-- Every line of the wrapped output fits the width (given enough
fuel). -/
theorem wrapFuel_line_length (width : ℕ) (hw : 1 ≤ width) :
    ∀ (fuel : ℕ) (hl : Bool) (chunks : List (List Char)),
    chunksMeasure chunks < fuel →
    ∀ l ∈ wrapFuel width fuel hl chunks, l.length ≤ width := by
  intro fuel
  induction fuel with
  | zero =>
    intro hl chunks h
    exact absurd h (Nat.not_lt_zero _)
  | succ f ih =>
    intro hl chunks hmeas l hmem
    cases chunks with
    | nil => rw [wrapFuel_nil] at hmem; simp at hmem
    | cons c cs =>
      rw [wrapFuel_succ] at hmem
      by_cases hnil : (if hl && isAllWS c then cs else c :: cs) = []
      · rw [hnil, wrapLine_nil] at hmem
        simp only at hmem
        rw [wrapFuel_nil] at hmem
        simp at hmem
      · have hlt := wrapLine_rest_lt width _ hnil
        have hle : chunksMeasure (if hl && isAllWS c then cs else c :: cs)
            ≤ chunksMeasure (c :: cs) := by
          split_ifs
          · exact chunksMeasure_tail_le c cs
          · exact le_rfl
        cases hline : (wrapLine width
            (if hl && isAllWS c then cs else c :: cs)).line with
        | some l0 =>
          rw [hline] at hmem
          simp only [List.mem_cons] at hmem
          rcases hmem with rfl | hmem
          · exact wrapLine_line_length width hw _ l hline
          · exact ih true _ (by omega) l hmem
        | none =>
          rw [hline] at hmem
          exact ih hl _ (by omega) l hmem

theorem one_le_maxCharsOf (fs : ℤ) (mw : ℚ) : 1 ≤ maxCharsOf fs mw := by
  unfold maxCharsOf
  have : (1 : ℤ) ≤ max 1 (pyInt (mw / avg_char_px fs)) := le_max_left _ _
  omega

theorem maxCharsOf_cast_mul_le (fs : ℤ) (mw : ℚ)
    (h : avg_char_px fs ≤ mw) :
    (maxCharsOf fs mw : ℚ) * avg_char_px fs ≤ mw := by
  have havg1 : (1 : ℚ) ≤ avg_char_px fs := le_max_right _ _
  have havg0 : 0 < avg_char_px fs := by linarith
  have hq1 : (1 : ℚ) ≤ mw / avg_char_px fs := (one_le_div havg0).mpr h
  have hq0 : 0 ≤ mw / avg_char_px fs := by linarith
  have hpy : pyInt (mw / avg_char_px fs) = ⌊mw / avg_char_px fs⌋ := by
    unfold pyInt
    rw [if_pos hq0]
  have hfl1 : (1 : ℤ) ≤ ⌊mw / avg_char_px fs⌋ :=
    Int.le_floor.mpr (by exact_mod_cast hq1)
  have htn : ((maxCharsOf fs mw : ℕ) : ℚ)
      = ((⌊mw / avg_char_px fs⌋ : ℤ) : ℚ) := by
    unfold maxCharsOf
    rw [hpy, max_eq_right hfl1]
    have h0 : (0 : ℤ) ≤ ⌊mw / avg_char_px fs⌋ := by omega
    exact_mod_cast congrArg (fun z : ℤ => (z : ℚ))
      (Int.toNat_of_nonneg h0)
  rw [htn]
  calc ((⌊mw / avg_char_px fs⌋ : ℤ) : ℚ) * avg_char_px fs
      ≤ (mw / avg_char_px fs) * avg_char_px fs :=
        mul_le_mul_of_nonneg_right (Int.floor_le _) (le_of_lt havg0)
    _ = mw := div_mul_cancel₀ _ (ne_of_gt havg0)

/-- Shared pixel bound for both `_wrap_text` implementations: when the
average glyph width fits in the pixel budget at all, every wrapped line
respects the budget. -/
theorem textwrap_line_pixel_bound (text : String) (fs : ℤ) (mw : ℚ)
    (h : avg_char_px fs ≤ mw) :
    ∀ l ∈ textwrapWrap text.data (maxCharsOf fs mw),
      (l.length : ℚ) * ((fs : ℚ) * (55/100)) ≤ mw := by
  intro l hmem
  have hw1 : 1 ≤ maxCharsOf fs mw := one_le_maxCharsOf fs mw
  have hlen : l.length ≤ maxCharsOf fs mw :=
    wrapFuel_line_length (maxCharsOf fs mw) hw1 _ false
      (splitChunks (mungeWhitespace text.data)) (by omega) l hmem
  have havg : (fs : ℚ) * (55/100) ≤ avg_char_px fs := le_max_left _ _
  have h0 : (0 : ℚ) ≤ (l.length : ℚ) := by positivity
  have havg0 : (0 : ℚ) ≤ avg_char_px fs := by
    have : (1 : ℚ) ≤ avg_char_px fs := le_max_right _ _
    linarith
  calc (l.length : ℚ) * ((fs : ℚ) * (55/100))
      ≤ (l.length : ℚ) * avg_char_px fs :=
        mul_le_mul_of_nonneg_left havg h0
    _ ≤ (maxCharsOf fs mw : ℚ) * avg_char_px fs :=
        mul_le_mul_of_nonneg_right (by exact_mod_cast hlen) havg0
    _ ≤ mw := maxCharsOf_cast_mul_le fs mw h

/-- C3 counterexample: with `font_size = 48`, `img_width = 100`,
`max_width_percent = 1`, the pixel budget is `1` but the forced
`max_chars = 1` still emits one-character lines of estimated width
`48 * 0.55 = 26.4 > 1`. -/
theorem wrap_line_pixel_bound_counterexample :
    "a".data ∈ ffmpegWrapLines "ab" 48 100 1 ∧
    ¬ (("a".data.length : ℚ) * ((48 : ℚ) * (55/100))
        ≤ ffmpeg_max_width_px 100 1) := by
  have hmc : maxCharsOf 48 (ffmpeg_max_width_px 100 1) = 1 := by
    unfold maxCharsOf ffmpeg_max_width_px avg_char_px pyInt
    norm_num
  have hlines : ffmpegWrapLines "ab" 48 100 1 = [['a'], ['b']] := by
    unfold ffmpegWrapLines
    rw [hmc]
    decide
  have hlen : "a".data.length = 1 := rfl
  constructor
  · rw [hlines]
    simp
  · rw [hlen]
    norm_num [ffmpeg_max_width_px]

/-- C3 (amended): whenever the average glyph width
`avg_char_px = max(font_size * 0.55, 1)` is at most the pixel budget
`max_width_px` (equivalently, the `max(1, ·)` clamp on `max_chars` is
not forced), every output line of either `_wrap_text` satisfies
`len(line) * font_size * 0.55 ≤ max_width_px`; the
counterexample shows the bound fails when `max_width_px < avg_char_px`. -/
theorem wrap_line_pixel_bound (text : String) (fs iw pct mwS : ℤ)
    (h1 : avg_char_px fs ≤ ffmpeg_max_width_px iw pct)
    (h2 : avg_char_px fs ≤ (mwS : ℚ)) :
    (∀ l ∈ ffmpegWrapLines text fs iw pct,
      (l.length : ℚ) * ((fs : ℚ) * (55/100))
        ≤ ffmpeg_max_width_px iw pct) ∧
    (∀ l ∈ steinWrapLines text fs mwS,
      (l.length : ℚ) * ((fs : ℚ) * (55/100)) ≤ (mwS : ℚ)) :=
  ⟨textwrap_line_pixel_bound text fs _ h1,
   textwrap_line_pixel_bound text fs _ h2⟩

/-- Witness for C3's amended theorem: a 48 px font on a 1080-wide canvas
at 80 % width. -/
theorem wrap_line_pixel_bound_witness :
    (∀ l ∈ ffmpegWrapLines "hello world" 48 1080 80,
      (l.length : ℚ) * ((48 : ℚ) * (55/100))
        ≤ ffmpeg_max_width_px 1080 80) ∧
    (∀ l ∈ steinWrapLines "hello world" 48 864,
      (l.length : ℚ) * ((48 : ℚ) * (55/100)) ≤ ((864 : ℤ) : ℚ)) :=
  wrap_line_pixel_bound "hello world" 48 1080 80 864
    (by norm_num [avg_char_px, ffmpeg_max_width_px, max_def])
    (by norm_num [avg_char_px, max_def])

/-! ### Conservation of non-whitespace content through wrapping -/

theorem nonWS_nil : nonWS [] = [] := rfl

theorem nonWS_cons (c : Char) (l : List Char) :
    nonWS (c :: l) = if isPyUWS c then nonWS l else c :: nonWS l := by
  simp only [nonWS, List.filter_cons]
  cases h : isPyUWS c <;> simp [h]

theorem nonWS_append (a b : List Char) :
    nonWS (a ++ b) = nonWS a ++ nonWS b := by
  simp [nonWS, List.filter_append]

theorem nonWS_eq_nil_of_isAllWS (l : List Char) (h : isAllWS l = true) :
    nonWS l = [] := by
  induction l with
  | nil => rfl
  | cons c cs ih =>
    simp only [isAllWS, List.all_cons, Bool.and_eq_true] at h
    rw [nonWS_cons, if_pos h.1]
    exact ih (by simpa [isAllWS] using h.2)

theorem nonWS_replicate_space (n : ℕ) :
    nonWS (List.replicate n ' ') = [] := by
  apply nonWS_eq_nil_of_isAllWS
  simp [isAllWS, isPyUWS]

theorem nonWS_unwrapNL (l : List Char) : nonWS (unwrapNL l) = nonWS l := by
  induction l with
  | nil => rfl
  | cons c cs ih =>
    unfold unwrapNL at ih ⊢
    simp only [List.map_cons]
    by_cases hc : c = '\n'
    · subst hc
      rw [if_pos rfl, nonWS_cons, nonWS_cons]
      simp [isPyUWS, ih]
    · rw [if_neg hc, nonWS_cons, nonWS_cons]
      cases h : isPyUWS c <;> simp [ih]

theorem nonWS_expandtabsAux (tabsize : ℕ) :
    ∀ (l : List Char) (col : ℕ),
    nonWS (expandtabsAux tabsize col l) = nonWS l := by
  intro l
  induction l with
  | nil => intro col; rfl
  | cons c cs ih =>
    intro col
    unfold expandtabsAux
    split_ifs with h1 h2
    · subst h1
      rw [nonWS_append, nonWS_replicate_space, ih]
      rw [nonWS_cons, if_pos (by simp [isPyUWS])]
      rfl
    · have hws : isPyUWS c = true := by
        rcases h2 with rfl | rfl <;> decide
      rw [nonWS_cons, if_pos hws, nonWS_cons, if_pos hws, ih]
    · rw [nonWS_cons, nonWS_cons, ih]

theorem nonWS_mungeWhitespace (l : List Char) :
    nonWS (mungeWhitespace l) = nonWS l := by
  unfold mungeWhitespace
  rw [← nonWS_expandtabsAux 8 l 0]
  generalize expandtabsAux 8 0 l = m
  induction m with
  | nil => rfl
  | cons c cs ih =>
    simp only [List.map_cons]
    by_cases h : isPyWS c = true
    · rw [if_pos h]
      rw [nonWS_cons, if_pos (show isPyUWS ' ' = true by decide)]
      rw [nonWS_cons, if_pos (isPyUWS_of_isPyWS c h), ih]
    · rw [if_neg h, nonWS_cons, nonWS_cons, ih]

theorem splitRunsAux_flatten (ws : Char → Bool) :
    ∀ (l acc : List Char),
    (splitRunsAux ws l acc).flatten = acc.reverse ++ l := by
  intro l
  induction l with
  | nil =>
    intro acc
    unfold splitRunsAux
    split_ifs with h
    · simp [List.isEmpty_iff.mp h]
    · simp
  | cons c cs ih =>
    intro acc
    cases acc with
    | nil => simpa using ih [c]
    | cons a as =>
      show (if ws c = ws a then splitRunsAux ws cs (c :: a :: as)
          else (a :: as).reverse :: splitRunsAux ws cs [c]).flatten = _
      split_ifs with h
      · rw [ih (c :: (a :: as))]
        simp
      · simp only [List.flatten_cons]
        rw [ih [c]]
        simp

theorem splitChunks_flatten (l : List Char) :
    (splitChunks l).flatten = l := by
  unfold splitChunks
  rw [splitRunsAux_flatten]
  rfl

theorem nonWS_flatten_dropTrailingWS (cur : List (List Char)) :
    nonWS (dropTrailingWS cur).flatten = nonWS cur.flatten := by
  induction cur using List.reverseRecOn with
  | nil => rfl
  | append_singleton ys l _ =>
    unfold dropTrailingWS
    rw [List.getLast?_concat]
    dsimp only
    by_cases hws : isAllWS l
    · rw [if_pos hws, List.dropLast_concat]
      rw [List.flatten_concat, nonWS_append,
        nonWS_eq_nil_of_isAllWS l hws]
      simp
    · rw [if_neg hws]

theorem nonWS_flatten_eq_nil_of_dropTrailingWS_empty
    (cur : List (List Char))
    (h : (dropTrailingWS cur).isEmpty = true) :
    nonWS cur.flatten = [] := by
  induction cur using List.reverseRecOn with
  | nil => rfl
  | append_singleton ys l _ =>
    unfold dropTrailingWS at h
    rw [List.getLast?_concat] at h
    dsimp only at h
    by_cases hws : isAllWS l
    · rw [if_pos hws, List.dropLast_concat] at h
      have hys : ys = [] := List.isEmpty_iff.mp h
      subst hys
      simpa using nonWS_eq_nil_of_isAllWS l hws
    · rw [if_neg hws] at h
      simp at h

theorem emit_conserves (base : List (List Char)) :
    nonWS ((if (dropTrailingWS base).isEmpty then (none : Option (List Char))
        else some (dropTrailingWS base).flatten).getD [])
      = nonWS base.flatten := by
  split_ifs with h
  · simp only [Option.getD_none]
    exact (nonWS_flatten_eq_nil_of_dropTrailingWS_empty base h).symm
  · simp only [Option.getD_some]
    exact nonWS_flatten_dropTrailingWS base

/-- One `_wrap_chunks` iteration loses no non-whitespace character:
the emitted line and the remaining chunks together carry exactly the
input's non-whitespace content. -/
theorem wrapLine_conserves (width : ℕ) (chunks : List (List Char)) :
    nonWS ((wrapLine width chunks).line.getD [])
      ++ nonWS (wrapLine width chunks).rest.flatten
      = nonWS chunks.flatten := by
  rcases hg : greedyTake width 0 chunks with ⟨cur, rest⟩
  have happ : cur ++ rest = chunks := by
    have := greedyTake_append width chunks 0
    rw [hg] at this
    simpa using this
  cases rest with
  | nil =>
    simp only [wrapLine, hg]
    rw [emit_conserves cur, ← happ]
    simp [nonWS_nil]
  | cons r rs =>
    simp only [wrapLine, hg]
    by_cases hlen : width < r.length
    · rw [if_pos hlen]
      dsimp only
      rcases hhlw : handle_long_word width (totalChars cur) r
        with ⟨cut, rem⟩
      simp only [hhlw]
      rw [emit_conserves, ← happ]
      have hsplit : cut ++ rem = r := by
        have := handle_long_word_split width (totalChars cur) r
        rw [hhlw] at this
        exact this
      rw [List.flatten_append, List.flatten_append, List.flatten_cons,
        List.flatten_cons]
      simp only [List.flatten_cons, List.flatten_nil, List.append_nil]
      rw [nonWS_append, nonWS_append, nonWS_append, nonWS_append,
        ← hsplit, nonWS_append]
      simp [List.append_assoc]
    · rw [if_neg hlen]
      dsimp only
      rw [emit_conserves cur, ← happ]
      rw [List.flatten_append, nonWS_append]

theorem nonWS_pyJoinNL_cons (l : List Char) (tail : List (List Char)) :
    nonWS (pyJoinNL (l :: tail)) = nonWS l ++ nonWS (pyJoinNL tail) := by
  cases tail with
  | nil => simp [pyJoinNL, nonWS_nil]
  | cons t ts =>
    show nonWS (l ++ '\n' :: pyJoinNL (t :: ts)) = _
    rw [nonWS_append, nonWS_cons, if_pos (by decide)]

/-- The whole wrap loses no non-whitespace character (given enough
fuel). -/
theorem wrapFuel_conserves (width : ℕ) :
    ∀ (fuel : ℕ) (hl : Bool) (chunks : List (List Char)),
    chunksMeasure chunks < fuel →
    nonWS (pyJoinNL (wrapFuel width fuel hl chunks))
      = nonWS chunks.flatten := by
  intro fuel
  induction fuel with
  | zero =>
    intro hl chunks h
    exact absurd h (Nat.not_lt_zero _)
  | succ f ih =>
    intro hl chunks hmeas
    cases chunks with
    | nil => rw [wrapFuel_nil]; rfl
    | cons c cs =>
      rw [wrapFuel_succ]
      set c1 := if hl && isAllWS c then cs else c :: cs with hc1
      have hch : nonWS c1.flatten = nonWS (c :: cs).flatten := by
        rw [hc1]
        split_ifs with hdrop
        · have hws : isAllWS c = true := by
            simp only [Bool.and_eq_true] at hdrop
            exact hdrop.2
          rw [List.flatten_cons, nonWS_append,
            nonWS_eq_nil_of_isAllWS c hws]
          rfl
        · rfl
      by_cases hnil : c1 = []
      · rw [hnil, wrapLine_nil]
        simp only
        rw [wrapFuel_nil]
        rw [← hch, hnil]
        rfl
      · have hlt := wrapLine_rest_lt width c1 hnil
        have hle : chunksMeasure c1 ≤ chunksMeasure (c :: cs) := by
          rw [hc1]
          split_ifs
          · exact chunksMeasure_tail_le c cs
          · exact le_rfl
        have hcons := wrapLine_conserves width c1
        cases hline : (wrapLine width c1).line with
        | some l0 =>
          rw [hline] at hcons
          simp only [Option.getD_some] at hcons
          simp only
          rw [nonWS_pyJoinNL_cons, ih true _ (by omega), hcons, hch]
        | none =>
          rw [hline] at hcons
          simp only [Option.getD_none, nonWS_nil,
            List.nil_append] at hcons
          simp only
          rw [ih hl _ (by omega), hcons, hch]

/-- Non-whitespace conservation through `textwrap.wrap` plus the
newline join. -/
theorem textwrapWrap_conserves (text : List Char) (width : ℕ) :
    nonWS (pyJoinNL (textwrapWrap text width)) = nonWS text := by
  unfold textwrapWrap
  rw [wrapFuel_conserves width _ false _ (by omega)]
  rw [splitChunks_flatten]
  exact nonWS_mungeWhitespace text

/-- C6 counterexample: wrapping `"abcdef"` at `font_size = 10`,
`img_width = 1080`, `max_width_percent = 2` gives a 3-character budget;
`break_long_words` splits the word into `"abc\ndef"`, so unwrapping
yields `"abc def"`, which is not the original text up to whitespace
collapsing. -/
theorem wrap_roundtrip_counterexample :
    collapseWS (unwrapNL (ffmpeg_wrap_text "abcdef" 10 "font" 1080 2).data)
      ≠ collapseWS "abcdef".data := by
  have hmc : maxCharsOf 10 (ffmpeg_max_width_px 1080 2) = 3 := by
    unfold maxCharsOf ffmpeg_max_width_px avg_char_px pyInt
    norm_num
    rfl
  have hout : ffmpeg_wrap_text "abcdef" 10 "font" 1080 2 = "abc\ndef" := by
    unfold ffmpeg_wrap_text ffmpegWrapLines
    rw [hmc]
    decide
  rw [hout]
  decide

/-- C6 (amended): wrapping drops and reorders no character outside
Python's Unicode whitespace class — stripping all Unicode whitespace
(`str.strip()`'s class, `isPyUWS`) from the unwrapped output of either
`_wrap_text` yields exactly the input's non-whitespace character
sequence.  Whitespace-only chunks can be dropped entirely, including
characters such as U+00A0 that `wordsep_re` treats as word characters
but `strip()` removes, so conservation cannot be stated for the
narrower six-character class.  Full reconstruction up to whitespace
collapsing fails whenever a word exceeds the per-line character budget,
because `break_long_words` inserts a line break inside the word (see
the counterexample). -/
theorem wrap_preserves_content (text : String) (fs iw pct mwS : ℤ)
    (fp : String) :
    nonWS (unwrapNL (ffmpeg_wrap_text text fs fp iw pct).data)
        = nonWS text.data ∧
    nonWS (unwrapNL (stein_wrap_text text fs mwS).1.data)
        = nonWS text.data := by
  constructor
  · rw [nonWS_unwrapNL]
    unfold ffmpeg_wrap_text
    split_ifs with h1 h2
    · subst h1; rfl
    · have hnil : ffmpegWrapLines text fs iw pct = [] :=
        List.isEmpty_iff.mp h2
      have := textwrapWrap_conserves text.data
        (maxCharsOf fs (ffmpeg_max_width_px iw pct))
      rw [show textwrapWrap text.data
            (maxCharsOf fs (ffmpeg_max_width_px iw pct))
          = ffmpegWrapLines text fs iw pct from rfl, hnil] at this
      exact this
    · have := textwrapWrap_conserves text.data
        (maxCharsOf fs (ffmpeg_max_width_px iw pct))
      exact this
  · rw [nonWS_unwrapNL]
    unfold stein_wrap_text
    split_ifs with h1 h2
    · subst h1; rfl
    · have hnil : steinWrapLines text fs mwS = [] :=
        List.isEmpty_iff.mp h2
      have := textwrapWrap_conserves text.data
        (maxCharsOf fs ((mwS : ℤ) : ℚ))
      rw [show textwrapWrap text.data (maxCharsOf fs ((mwS : ℤ) : ℚ))
          = steinWrapLines text fs mwS from rfl, hnil] at this
      exact this
    · exact textwrapWrap_conserves text.data (maxCharsOf fs ((mwS : ℤ) : ℚ))

/-- Witness for C10: an unknown position name with no overrides falls
back to the centre expression pair. -/
theorem calculate_position_fallback_witness :
    calculate_position
      { font_path := "f", font_size := 48, text_color := "white",
        border_width := 2, border_color := "black", shadow_x := 2,
        shadow_y := 2, shadow_color := "black", position := "weird",
        background_enabled := false, background_color := "black",
        background_opacity := 1/2, text_opacity := 1 }
      none = ("(w-text_w)/2", "(h-text_h)/2") :=
  (calculate_position_fallback
    { font_path := "f", font_size := 48, text_color := "white",
      border_width := 2, border_color := "black", shadow_x := 2,
      shadow_y := 2, shadow_color := "black", position := "weird",
      background_enabled := false, background_color := "black",
      background_opacity := 1/2, text_opacity := 1 }
    none).1 (by decide) (by decide)

end RunpodSuite
